import Mathlib

/-!
Verification of the tic-tac-toe application (`src/App.js`).

The source file contains two variants of the application separated by a
document separator:
* an older variant (lines 1-137) whose `calculateWinner` returns only the
  winning mark;
* a newer variant (lines 138-330) whose `calculateWinner` returns the array
  `[mark, a, b, c]`, whose `handlePlay` records the 1-based row/column of the
  changed cell, and whose `Game` component has an ascending/descending toggle
  for the rendered move list.

JavaScript values are embedded as follows: a cell holds `"X"`, `"O"` or
`null`, embedded as `Option Cell` (`none` = `null`); a board is a JS array of
nine cells, embedded as `List (Option Cell)`; out-of-range array access gives
`undefined` (falsy, like `null`), so reading a cell goes through
`Option.join ∘ (·[·]?)`, which collapses both `null` and out-of-range to
`none` exactly as JS truthiness tests do in the code.  The loose `!=`
comparison in `getIndexOfTheLastSquare` (under which `null == undefined`)
is embedded by `looseEq` on `Option (Option Cell)`.
-/

/-- A player's mark: `"X"` or `"O"` in the JS source. -/
inductive Cell : Type
  | X : Cell
  | O : Cell
deriving DecidableEq

instance : Fintype Cell :=
  ⟨⟨{Cell.X, Cell.O}, by decide⟩, by intro c; cases c <;> decide⟩

/-- A board: the JS `squares` array.  `none` is an empty (`null`) cell. -/
abbrev Board := List (Option Cell)

/-- JS `squares[i]` as used in truthiness tests and `===` comparisons against a
truthy mark: both a `null` cell and an out-of-range (`undefined`) access read
as `none`. -/
def getCell (squares : Board) (i : Nat) : Option Cell :=
  (squares[i]?).join

/-- The `lines` array of `calculateWinner`: the 8 winning lines, rows
top-to-bottom, then columns left-to-right, then the two diagonals, in the
exact order they appear in the source. -/
def lines : List (Nat × Nat × Nat) :=
  [(0, 1, 2), (3, 4, 5), (6, 7, 8), (0, 3, 6), (1, 4, 7), (2, 5, 8),
   (0, 4, 8), (2, 4, 6)]

/-- The loop condition of `calculateWinner`:
`squares[a] && squares[a] === squares[b] && squares[a] === squares[c]`. -/
def lineWon (squares : Board) (l : Nat × Nat × Nat) : Bool :=
  match getCell squares l.1 with
  | none => false
  | some m => getCell squares l.2.1 == some m && getCell squares l.2.2 == some m

/-- The `for` loop of the newer `calculateWinner` (lines 311-330): scan the
line list in order; on the first line whose condition holds, return
`[squares[a], a, b, c]` (its first cell is then `some m`, so the `map` always
fires). -/
def winnerLoop (squares : Board) : List (Nat × Nat × Nat) → Option (Cell × Nat × Nat × Nat)
  | [] => none
  | (a, b, c) :: rest =>
    if lineWon squares (a, b, c) then
      (getCell squares a).map (fun m => (m, a, b, c))
    else
      winnerLoop squares rest

/-- The newer `calculateWinner` (lines 311-330): returns
`some (mark, a, b, c)` for the first winning line, else `none`. -/
def calculateWinner (squares : Board) : Option (Cell × Nat × Nat × Nat) :=
  winnerLoop squares lines

/-- The `for` loop of the older `calculateWinner` (lines 119-137), which
returns only `squares[a]`. -/
def winnerLoopV1 (squares : Board) : List (Nat × Nat × Nat) → Option Cell
  | [] => none
  | (a, b, c) :: rest =>
    if lineWon squares (a, b, c) then
      getCell squares a
    else
      winnerLoopV1 squares rest

/-- The older `calculateWinner` (lines 119-137): returns `some mark` for the
first winning line, else `none`. -/
def calculateWinnerV1 (squares : Board) : Option Cell :=
  winnerLoopV1 squares lines

/-- Spec-side reading of "line fully occupied by one mark": the three cells of
the line all hold mark `m`. -/
def lineFilledBy (squares : Board) (l : Nat × Nat × Nat) (m : Cell) : Prop :=
  getCell squares l.1 = some m ∧ getCell squares l.2.1 = some m ∧
    getCell squares l.2.2 = some m

instance (squares : Board) (l : Nat × Nat × Nat) (m : Cell) :
    Decidable (lineFilledBy squares l m) := by
  unfold lineFilledBy; infer_instance

theorem lineWon_iff (squares : Board) (l : Nat × Nat × Nat) :
    lineWon squares l = true ↔ ∃ m, lineFilledBy squares l m := by
  unfold lineWon lineFilledBy
  cases h : getCell squares l.1 with
  | none =>
    simp only [Bool.false_eq_true, false_iff]
    rintro ⟨m, hm, -, -⟩
    exact Option.noConfusion hm
  | some m =>
    simp only [Bool.and_eq_true, beq_iff_eq]
    constructor
    · rintro ⟨hb, hc⟩; exact ⟨m, rfl, hb, hc⟩
    · rintro ⟨m', hm', hb, hc⟩
      cases hm'
      exact ⟨hb, hc⟩

/-- Bridge between the `for` loop and `List.find?`: the loop returns the mark
and indices of the first line satisfying the loop condition. -/
theorem winnerLoop_eq_find (squares : Board) (ls : List (Nat × Nat × Nat)) :
    winnerLoop squares ls =
      (ls.find? (lineWon squares)).bind
        (fun l => (getCell squares l.1).map (fun m => (m, l.1, l.2.1, l.2.2))) := by
  induction ls with
  | nil => rfl
  | cons hd tl ih =>
    obtain ⟨a, b, c⟩ := hd
    rw [winnerLoop]
    by_cases hw : lineWon squares (a, b, c) = true
    · rw [if_pos hw, List.find?_cons_of_pos _ hw]
      rfl
    · rw [if_neg hw, List.find?_cons_of_neg _ hw]
      exact ih

/-- Same bridge for the older variant's loop. -/
theorem winnerLoopV1_eq_find (squares : Board) (ls : List (Nat × Nat × Nat)) :
    winnerLoopV1 squares ls =
      (ls.find? (lineWon squares)).bind (fun l => getCell squares l.1) := by
  induction ls with
  | nil => rfl
  | cons hd tl ih =>
    obtain ⟨a, b, c⟩ := hd
    rw [winnerLoopV1]
    by_cases hw : lineWon squares (a, b, c) = true
    · rw [if_pos hw, List.find?_cons_of_pos _ hw]
      rfl
    · rw [if_neg hw, List.find?_cons_of_neg _ hw]
      exact ih

/-- One entry of `history` in the newer variant:
`{ squares: [...], row: ..., col: ... }`.  `row`/`col` are `none` for the
initial entry (`null` in the source); for entries appended by `handlePlay`
they hold the 1-based row/column of the changed cell. -/
structure MoveRec : Type where
  squares : Board
  row : Option Nat
  col : Option Nat
deriving DecidableEq

/-- The React state of the `Game` component of the newer variant:
`history`, `currentMove` and the `isAscending` display-order flag. -/
structure GameState : Type where
  history : List MoveRec
  currentMove : Nat
  isAscending : Bool
deriving DecidableEq

/-- The initial history entry: the all-empty board with `null` row/col. -/
def initMove : MoveRec :=
  ⟨List.replicate 9 none, none, none⟩

/-- The initial React state: `history = [initial entry]`, `currentMove = 0`,
`isAscending = true`. -/
def initialState : GameState :=
  ⟨[initMove], 0, true⟩

/-- The derived flag `xIsNext = currentMove % 2 === 0`. -/
def xIsNext (st : GameState) : Bool :=
  st.currentMove % 2 == 0

/-- The live board `currentSquares = history[currentMove].squares` (in range for every
reachable state; the default is never hit there). -/
def currentSquares (st : GameState) : Board :=
  (st.history.getD st.currentMove ⟨[], none, none⟩).squares

/-- JS loose equality `==` restricted to the values a history cell read can
produce: `undefined` (out of range, embedded `none`), `null` (empty cell,
embedded `some none`) and a mark (`some (some m)`).  Under loose equality
`null == undefined`, while a mark equals only the same mark. -/
def looseEq : Option (Option Cell) → Option (Option Cell) → Bool
  | some (some a), some (some b) => a == b
  | some (some _), _ => false
  | _, some (some _) => false
  | _, _ => true

/-- The `for` loop of `getIndexOfTheLastSquare`: starting at index `k` with
`fuel` iterations left, return the first index whose cells compare loosely
unequal, else `undefined` (`none`). -/
def findDiff (prev cur : Board) : Nat → Nat → Option Nat
  | 0, _ => none
  | fuel + 1, k =>
    if looseEq (prev[k]?) (cur[k]?) then
      findDiff prev cur fuel (k + 1)
    else
      some k

/-- The function `getIndexOfTheLastSquare(previousSquares, currentSquares)` (lines
219-226): scan indices `0 ≤ i < previousSquares.length` and return the first
`i` with `previousSquares[i] != currentSquares[i]` (loose `!=`); if the loop
finishes, the function returns `undefined`, embedded as `none`. -/
def getIndexOfTheLastSquare (previousSquares currentSquares : Board) : Option Nat :=
  findDiff previousSquares currentSquares previousSquares.length 0

/-- The function `handlePlay(nextSquares)` (lines 229-249): find the changed cell, derive
its 1-based row/column, truncate the history to `[0, currentMove]` and append
the new entry, then point `currentMove` at the new last entry.
When no cell differs, `index` is `undefined` and the JS arithmetic produces
`NaN` rows/columns; the embedding renders that absent value as `none`
(`handlePlay` is only ever invoked with a board that differs in one cell). -/
def handlePlay (st : GameState) (nextSquares : Board) : GameState :=
  let previousSquares := currentSquares st
  let index := getIndexOfTheLastSquare previousSquares nextSquares
  let nextHistory := st.history.take (st.currentMove + 1) ++
    [⟨nextSquares, index.map (fun j => j / 3 + 1), index.map (fun j => j % 3 + 1)⟩]
  { st with history := nextHistory, currentMove := nextHistory.length - 1 }

/-- The function `handleClick(i)` of the newer `Board` (lines 156-167), composed with the
props `Game` passes it: if there is a winner or the cell is filled, return
with no state change; otherwise set cell `i` of a copy of the live board to
`"X"`/`"O"` according to `xIsNext` and call `handlePlay`. -/
def handleClick (st : GameState) (i : Nat) : GameState :=
  let squares := currentSquares st
  if (calculateWinner squares).isSome || (getCell squares i).isSome then
    st
  else
    handlePlay st (squares.set i (some (if xIsNext st then Cell.X else Cell.O)))

/-- The function `jumpTo(nextMove)` (lines 252-254): `setCurrentMove(nextMove)`. -/
def jumpTo (st : GameState) (nextMove : Nat) : GameState :=
  { st with currentMove := nextMove }

/-- The handler `handleToggleOrder` (lines 291-293): `setIsAscending(!isAscending)`. -/
def handleToggleOrder (st : GameState) : GameState :=
  { st with isAscending := !st.isAscending }

/-- How a mark renders: `"X"` or `"O"`. -/
def cellStr : Cell → String
  | Cell.X => "X"
  | Cell.O => "O"

/-- The status line of the newer `Board` (line 172):
`winner ? "Winner: " + winner[0] : "Next player: " + (xIsNext ? "X" : "O")`. -/
def status (xIsNextFlag : Bool) (squares : Board) : String :=
  match calculateWinner squares with
  | some w => "Winner: " ++ cellStr w.1
  | none => "Next player: " ++ (if xIsNextFlag then "X" else "O")

/-- The flag `isWinningSquare = winner && winner.includes(index)` (line 181).  In JS
the first element of `winner` is the mark string, which `===`-compares
unequal to every numeric index, so membership reduces to the three index
slots. -/
def isHighlighted (squares : Board) (index : Nat) : Bool :=
  match calculateWinner squares with
  | some (_, a, b, c) => index == a || index == b || index == c
  | none => false

/-- How an optional row/column renders inside a template literal: JS prints
`null` for a null field. -/
def optNatStr : Option Nat → String
  | none => "null"
  | some n => toString n

/-- The description of one move-list entry (lines 257-266). -/
def moveDescription (currentMove : Nat) (entry : MoveRec) (move : Nat) : String :=
  if move = currentMove then
    "You are at move #" ++ toString move
  else if move > 0 then
    "Go to move #" ++ toString move ++ " (" ++ optNatStr entry.row ++ ", " ++
      optNatStr entry.col ++ ")"
  else
    "Go to game start"

/-- The `moves` list (lines 257-283) reduced to its text content:
`history.map((entry, move) => ...)`. -/
def movesList (st : GameState) : List String :=
  st.history.enum.map (fun p => moveDescription st.currentMove p.2 p.1)

/-- The rendered move list (line 304):
`isAscending ? moves : moves.slice().reverse()`. -/
def renderedMoves (st : GameState) : List String :=
  if st.isAscending then movesList st else (movesList st).reverse

/-- The mark placed by the move stored at history index `m` (`m ≥ 1`): `X`
when `m` is odd, because the move was played with `currentMove = m - 1` and
`xIsNext = (m - 1) % 2 === 0`. -/
def turnMark (m : Nat) : Cell :=
  if m % 2 = 1 then Cell.X else Cell.O

/-- The states the UI can reach: the initial render, cell clicks (the board
only wires up indices 0-8), history-entry clicks (the list only offers
in-range indices) and order toggles. -/
inductive Reachable : GameState → Prop
  | init : Reachable initialState
  | play {st : GameState} (i : Nat) (hi : i < 9) :
      Reachable st → Reachable (handleClick st i)
  | jump {st : GameState} (m : Nat) (hm : m < st.history.length) :
      Reachable st → Reachable (jumpTo st m)
  | toggle {st : GameState} : Reachable st → Reachable (handleToggleOrder st)

/-- The one-cell-difference relation between consecutive history entries:
entry `m` arises from entry `m - 1` by filling exactly one empty cell with
the mark of the player who moved on turn `m`. -/
def stepInv (p q : MoveRec) (m : Nat) : Prop :=
  ∃ i, i < 9 ∧ p.squares[i]? = some none ∧
    q.squares = p.squares.set i (some (turnMark m))

/-- The state invariant: the cursor is in range, the first history entry is
the all-empty board with null row/col, every board has 9 cells, and
consecutive entries differ by exactly one move. -/
def StateInv (st : GameState) : Prop :=
  st.currentMove < st.history.length ∧
  st.history[0]? = some initMove ∧
  (∀ r ∈ st.history, r.squares.length = 9) ∧
  ∀ m, 0 < m → m < st.history.length →
    ∃ p q, st.history[m - 1]? = some p ∧ st.history[m]? = some q ∧ stepInv p q m

theorem looseEq_refl (a : Option (Option Cell)) : looseEq a a = true := by
  match a with
  | none => rfl
  | some none => rfl
  | some (some m) => simp [looseEq]

theorem ne_of_looseEq_eq_false {a b : Option (Option Cell)}
    (h : looseEq a b = false) : a ≠ b := by
  intro hab
  rw [hab, looseEq_refl] at h
  exact Bool.noConfusion h

theorem looseEq_some_some {x y : Option Cell} :
    looseEq (some x) (some y) = true ↔ x = y := by
  match x, y with
  | none, none => simp [looseEq]
  | none, some b => simp [looseEq]
  | some a, none => simp [looseEq]
  | some a, some b => simp [looseEq]

theorem findDiff_eq_none (prev cur : Board) (fuel k : Nat)
    (h : ∀ j, k ≤ j → j < k + fuel → looseEq (prev[j]?) (cur[j]?) = true) :
    findDiff prev cur fuel k = none := by
  induction fuel generalizing k with
  | zero => rfl
  | succ n ih =>
    rw [findDiff, if_pos (h k (Nat.le_refl k) (by omega))]
    exact ih (k + 1) (fun j hj hj' => h j (by omega) (by omega))

theorem findDiff_none_all (prev cur : Board) (fuel k : Nat)
    (h : findDiff prev cur fuel k = none) :
    ∀ j, k ≤ j → j < k + fuel → looseEq (prev[j]?) (cur[j]?) = true := by
  induction fuel generalizing k with
  | zero => intro j hj hj'; omega
  | succ n ih =>
    rw [findDiff] at h
    by_cases hk : looseEq (prev[k]?) (cur[k]?) = true
    · rw [if_pos hk] at h
      intro j hj hj'
      rcases Nat.eq_or_lt_of_le hj with rfl | hlt
      · exact hk
      · exact ih (k + 1) h j hlt (by omega)
    · rw [if_neg hk] at h
      exact Option.noConfusion h

theorem findDiff_some_spec (prev cur : Board) (fuel k i : Nat)
    (h : findDiff prev cur fuel k = some i) :
    k ≤ i ∧ i < k + fuel ∧ looseEq (prev[i]?) (cur[i]?) = false ∧
      ∀ j, k ≤ j → j < i → looseEq (prev[j]?) (cur[j]?) = true := by
  induction fuel generalizing k with
  | zero => exact Option.noConfusion h
  | succ n ih =>
    rw [findDiff] at h
    by_cases hk : looseEq (prev[k]?) (cur[k]?) = true
    · rw [if_pos hk] at h
      obtain ⟨h1, h2, h3, h4⟩ := ih (k + 1) h
      refine ⟨by omega, by omega, h3, ?_⟩
      intro j hj hj'
      rcases Nat.eq_or_lt_of_le hj with rfl | hlt
      · exact hk
      · exact h4 j hlt hj'
    · rw [if_neg hk] at h
      cases h
      exact ⟨Nat.le_refl _, by omega, Bool.eq_false_iff.mpr hk,
        fun j hj hj' => absurd (Nat.lt_of_le_of_lt hj hj') (Nat.lt_irrefl _)⟩

theorem findDiff_finds (prev cur : Board) (fuel k i : Nat)
    (hki : k ≤ i) (hif : i < k + fuel)
    (hne : looseEq (prev[i]?) (cur[i]?) = false)
    (heq : ∀ j, k ≤ j → j < i → looseEq (prev[j]?) (cur[j]?) = true) :
    findDiff prev cur fuel k = some i := by
  induction fuel generalizing k with
  | zero => omega
  | succ n ih =>
    rw [findDiff]
    rcases Nat.eq_or_lt_of_le hki with rfl | hlt
    · rw [if_neg (by rw [hne]; exact Bool.false_ne_true)]
    · rw [if_pos (heq k (Nat.le_refl k) hlt)]
      exact ih (k + 1) hlt (by omega) (fun j hj hj' => heq j (by omega) hj')

/-- On two identical boards `getIndexOfTheLastSquare` scans to the end and
returns `undefined`. -/
theorem getIndexOfTheLastSquare_self (prev : Board) :
    getIndexOfTheLastSquare prev prev = none :=
  findDiff_eq_none prev prev prev.length 0
    (fun _ _ _ => looseEq_refl _)

/-- After filling one empty cell, `getIndexOfTheLastSquare` returns exactly
that cell's index. -/
theorem getIndexOfTheLastSquare_set (prev : Board) (i : Nat) (m : Cell)
    (hi : i < prev.length) (hempty : prev[i]? = some none) :
    getIndexOfTheLastSquare prev (prev.set i (some m)) = some i := by
  apply findDiff_finds prev _ prev.length 0 i (Nat.zero_le i) (by omega)
  · rw [hempty, List.getElem?_set_self hi]
    rfl
  · intro j hj hj'
    rw [List.getElem?_set_ne (by omega)]
    exact looseEq_refl _

/-- An empty-cell read from a board long enough: the raw slot holds `null`. -/
theorem getElem?_of_getCell_none {squares : Board} {i : Nat}
    (hi : i < squares.length) (he : getCell squares i = none) :
    squares[i]? = some none := by
  rcases hq : squares[i]? with _ | v
  · rw [List.getElem?_eq_getElem hi] at hq
    exact Option.noConfusion hq
  · rcases v with _ | m
    · rfl
    · rw [getCell, hq] at he
      exact Option.noConfusion he

/-- The guard of `handleClick`: with a winner or a filled cell, the early
`return` leaves the state untouched. -/
theorem handleClick_stop (st : GameState) (i : Nat)
    (h : ((calculateWinner (currentSquares st)).isSome ||
      (getCell (currentSquares st) i).isSome) = true) :
    handleClick st i = st := by
  simp only [handleClick]
  exact if_pos h

/-- The live board is the board of the in-range history entry at the cursor. -/
theorem currentSquares_mem (st : GameState)
    (h : st.currentMove < st.history.length) :
    ∃ r ∈ st.history, st.history[st.currentMove]? = some r ∧
      currentSquares st = r.squares := by
  have hq := List.getElem?_eq_getElem h
  refine ⟨st.history[st.currentMove], List.getElem_mem h, hq, ?_⟩
  rw [currentSquares, List.getD_eq_getElem?_getD, hq]
  rfl

/-- What a valid click does, spelled out: the placed mark is `X` exactly when
`currentMove` is even, the history is truncated to `[0, currentMove]` and
extended by the new entry (with 1-based row/column of the clicked cell), and
the cursor moves to the new last index. -/
theorem handleClick_valid_eq (st : GameState) (i : Nat) (hi : i < 9)
    (hlen : (currentSquares st).length = 9)
    (hcm : st.currentMove < st.history.length)
    (hnw : calculateWinner (currentSquares st) = none)
    (he : getCell (currentSquares st) i = none) :
    handleClick st i =
      ⟨st.history.take (st.currentMove + 1) ++
        [⟨(currentSquares st).set i
            (some (if st.currentMove % 2 = 0 then Cell.X else Cell.O)),
          some (i / 3 + 1), some (i % 3 + 1)⟩],
        st.currentMove + 1, st.isAscending⟩ := by
  have hi' : i < (currentSquares st).length := by omega
  have hempty := getElem?_of_getCell_none hi' he
  have hmark : (if xIsNext st then Cell.X else Cell.O) =
      (if st.currentMove % 2 = 0 then Cell.X else Cell.O) := by
    by_cases hp : st.currentMove % 2 = 0
    · rw [if_pos hp, if_pos (by simp [xIsNext, hp])]
    · rw [if_neg hp, if_neg (by simp [xIsNext, hp])]
  have hguard : ((calculateWinner (currentSquares st)).isSome ||
      (getCell (currentSquares st) i).isSome) = false := by
    rw [hnw, he]; rfl
  have hidx := getIndexOfTheLastSquare_set (currentSquares st) i
    (if st.currentMove % 2 = 0 then Cell.X else Cell.O) hi' hempty
  simp only [handleClick, handlePlay, hmark, hguard, Bool.false_eq_true,
    if_false, hidx, Option.map_some']
  have htake : (st.history.take (st.currentMove + 1)).length =
      st.currentMove + 1 := by
    rw [List.length_take]; omega
  congr 1
  rw [List.length_append, htake, List.length_singleton]
  omega

theorem stateInv_initial : StateInv initialState := by
  refine ⟨Nat.zero_lt_one, rfl, ?_, ?_⟩
  · intro r hr
    rw [show initialState.history = [initMove] from rfl, List.mem_singleton] at hr
    subst hr
    rfl
  · intro m hm hm'
    rw [show initialState.history.length = 1 from rfl] at hm'
    omega

theorem stateInv_handleClick {st : GameState} (ih : StateInv st)
    (i : Nat) (hi : i < 9) : StateInv (handleClick st i) := by
  obtain ⟨hcm, h0, hlens, hchain⟩ := ih
  by_cases hg : ((calculateWinner (currentSquares st)).isSome ||
      (getCell (currentSquares st) i).isSome) = true
  · rw [handleClick_stop st i hg]
    exact ⟨hcm, h0, hlens, hchain⟩
  · rw [Bool.or_eq_true, not_or] at hg
    obtain ⟨hg1, hg2⟩ := hg
    rw [Option.not_isSome_iff_eq_none] at hg1 hg2
    obtain ⟨r, hrmem, hrq, hrsq⟩ := currentSquares_mem st hcm
    have hlen : (currentSquares st).length = 9 := by
      rw [hrsq]; exact hlens r hrmem
    rw [handleClick_valid_eq st i hi hlen hcm hg1 hg2]
    set mark := (if st.currentMove % 2 = 0 then Cell.X else Cell.O) with hmark
    set newRec : MoveRec :=
      ⟨(currentSquares st).set i (some mark),
        some (i / 3 + 1), some (i % 3 + 1)⟩ with hnew
    have htake : (st.history.take (st.currentMove + 1)).length =
        st.currentMove + 1 := by
      rw [List.length_take]; omega
    refine ⟨?_, ?_, ?_, ?_⟩
    · show st.currentMove + 1 <
        (st.history.take (st.currentMove + 1) ++ [newRec]).length
      rw [List.length_append, htake, List.length_singleton]
      omega
    · show (st.history.take (st.currentMove + 1) ++ [newRec])[0]? = some initMove
      rw [List.getElem?_append_left (by rw [htake]; omega),
        List.getElem?_take_of_lt (by omega)]
      exact h0
    · intro r' hr'
      rw [show (GameState.mk (st.history.take (st.currentMove + 1) ++ [newRec])
            (st.currentMove + 1) st.isAscending).history =
          st.history.take (st.currentMove + 1) ++ [newRec] from rfl,
        List.mem_append, List.mem_singleton] at hr'
      rcases hr' with hr' | hr'
      · exact hlens r' (List.take_subset _ _ hr')
      · subst hr'
        show ((currentSquares st).set i (some mark)).length = 9
        rw [List.length_set]
        exact hlen
    · intro m hm0 hmlt
      rw [show (GameState.mk (st.history.take (st.currentMove + 1) ++ [newRec])
            (st.currentMove + 1) st.isAscending).history =
          st.history.take (st.currentMove + 1) ++ [newRec] from rfl] at hmlt ⊢
      rw [List.length_append, htake, List.length_singleton] at hmlt
      by_cases hmc : m ≤ st.currentMove
      · have e1 : (st.history.take (st.currentMove + 1) ++ [newRec])[m - 1]? =
            st.history[m - 1]? := by
          rw [List.getElem?_append_left (by rw [htake]; omega),
            List.getElem?_take_of_lt (by omega)]
        have e2 : (st.history.take (st.currentMove + 1) ++ [newRec])[m]? =
            st.history[m]? := by
          rw [List.getElem?_append_left (by rw [htake]; omega),
            List.getElem?_take_of_lt (by omega)]
        rw [e1, e2]
        exact hchain m hm0 (by omega)
      · have hm : m = st.currentMove + 1 := by omega
        subst hm
        have e1 : (st.history.take (st.currentMove + 1) ++
            [newRec])[st.currentMove + 1 - 1]? = some r := by
          rw [show st.currentMove + 1 - 1 = st.currentMove from rfl,
            List.getElem?_append_left (by rw [htake]; omega),
            List.getElem?_take_of_lt (by omega), hrq]
        have e2 : (st.history.take (st.currentMove + 1) ++
            [newRec])[st.currentMove + 1]? = some newRec := by
          rw [List.getElem?_append_right htake.le, htake, Nat.sub_self]
          rfl
        have hturn : turnMark (st.currentMove + 1) = mark := by
          rw [turnMark, hmark]
          by_cases hp : st.currentMove % 2 = 0
          · rw [if_pos (by omega), if_pos hp]
          · rw [if_neg (by omega), if_neg hp]
        refine ⟨r, newRec, e1, e2, i, hi, ?_, ?_⟩
        · rw [← hrsq]
          exact getElem?_of_getCell_none (by omega) hg2
        · show (currentSquares st).set i (some mark) =
            r.squares.set i (some (turnMark (st.currentMove + 1)))
          rw [← hrsq, hturn]

/-- The state invariant holds in every reachable state. -/
theorem reachable_stateInv {st : GameState} (h : Reachable st) : StateInv st := by
  induction h with
  | init => exact stateInv_initial
  | play i hi _ ih => exact stateInv_handleClick ih i hi
  | jump m hm _ ih => exact ⟨hm, ih.2.1, ih.2.2.1, ih.2.2.2⟩
  | toggle _ ih => exact ih

/-- A characterization: `List.find?` returns the element at the first position satisfying the
predicate. -/
theorem find?_some_position {α : Type} (p : α → Bool) (l : List α) (x : α)
    (h : l.find? p = some x) :
    ∃ k, ∃ hk : k < l.length, l.get ⟨k, hk⟩ = x ∧ p x = true ∧
      ∀ j, (hj : j < k) → p (l.get ⟨j, Nat.lt_trans hj hk⟩) = false := by
  induction l with
  | nil => exact Option.noConfusion h
  | cons a t ih =>
    by_cases ha : p a = true
    · rw [List.find?_cons_of_pos _ ha] at h
      cases h
      exact ⟨0, Nat.succ_pos _, rfl, ha,
        fun j hj => absurd hj (Nat.not_lt_zero j)⟩
    · rw [List.find?_cons_of_neg _ ha] at h
      obtain ⟨k, hk, hget, hpx, hbefore⟩ := ih h
      refine ⟨k + 1, Nat.succ_lt_succ hk, hget, hpx, ?_⟩
      intro j hj
      cases j with
      | zero => exact Bool.eq_false_iff.mpr ha
      | succ j' => exact hbefore j' (Nat.lt_of_succ_lt_succ hj)

/-- The concrete winning board of the spec's example scenario:
`[X, X, X, O, O, null, null, null, null]`. -/
def winBoardX : Board :=
  [some Cell.X, some Cell.X, some Cell.X, some Cell.O, some Cell.O,
   none, none, none, none]

/-- The all-empty board. -/
def emptyBoard : Board :=
  List.replicate 9 none

/-- A completely full board with no winning line (a draw). -/
def drawBoard : Board :=
  [some Cell.X, some Cell.X, some Cell.O, some Cell.O, some Cell.O,
   some Cell.X, some Cell.X, some Cell.O, some Cell.X]

/-- Claim C1: For every 9-cell board on which at least one of the 8 fixed
winning lines (3 rows, 3 columns, 2 diagonals) is fully occupied by one mark,
`calculateWinner` returns the mark and the three cell indices of the first
such line in the fixed priority order rows top-to-bottom, then columns
left-to-right, then the two diagonals (the order of `lines`); the older
variant returns the same mark. -/
theorem calculateWinner_returns_first_won_line (squares : Board)
    (h : ∃ l ∈ lines, ∃ m, lineFilledBy squares l m) :
    ∃ k, ∃ hk : k < lines.length, ∃ m,
      lineFilledBy squares (lines.get ⟨k, hk⟩) m ∧
      (∀ j, (hj : j < k) →
        ¬∃ m', lineFilledBy squares (lines.get ⟨j, Nat.lt_trans hj hk⟩) m') ∧
      calculateWinner squares =
        some (m, (lines.get ⟨k, hk⟩).1, (lines.get ⟨k, hk⟩).2.1,
          (lines.get ⟨k, hk⟩).2.2) ∧
      calculateWinnerV1 squares = some m := by
  have hsome : (lines.find? (lineWon squares)).isSome := by
    rw [List.find?_isSome]
    obtain ⟨l, hl, m, hm⟩ := h
    exact ⟨l, hl, (lineWon_iff squares l).mpr ⟨m, hm⟩⟩
  obtain ⟨l, hfind⟩ := Option.isSome_iff_exists.mp hsome
  obtain ⟨k, hk, hget, hpx, hbefore⟩ := find?_some_position _ _ _ hfind
  obtain ⟨m, hm⟩ := (lineWon_iff squares l).mp hpx
  refine ⟨k, hk, m, by rw [hget]; exact hm, ?_, ?_, ?_⟩
  · intro j hj hex
    have hw := (lineWon_iff squares _).mpr hex
    rw [hbefore j hj] at hw
    exact Bool.noConfusion hw
  · rw [hget, calculateWinner, winnerLoop_eq_find, hfind, Option.some_bind,
      hm.1, Option.map_some']
  · rw [calculateWinnerV1, winnerLoopV1_eq_find, hfind, Option.some_bind, hm.1]

/-- Witness for C1: on `[X,X,X,O,O,null,null,null,null]` the top row wins. -/
theorem calculateWinner_returns_first_won_line_witness :
    (∃ l ∈ lines, ∃ m, lineFilledBy winBoardX l m) ∧
    (∃ k, ∃ hk : k < lines.length, ∃ m,
      lineFilledBy winBoardX (lines.get ⟨k, hk⟩) m ∧
      (∀ j, (hj : j < k) →
        ¬∃ m', lineFilledBy winBoardX (lines.get ⟨j, Nat.lt_trans hj hk⟩) m') ∧
      calculateWinner winBoardX =
        some (m, (lines.get ⟨k, hk⟩).1, (lines.get ⟨k, hk⟩).2.1,
          (lines.get ⟨k, hk⟩).2.2) ∧
      calculateWinnerV1 winBoardX = some m) :=
  ⟨⟨(0, 1, 2), by decide, Cell.X, by decide⟩,
    calculateWinner_returns_first_won_line winBoardX
      ⟨(0, 1, 2), by decide, Cell.X, by decide⟩⟩

/-- Claim C9: For every board, the two `calculateWinner` variants agree: the
older one (lines 119-137) returns `null` exactly when the newer one (lines
311-330) returns `null`, and when both return a result the older variant's
mark is the first element of the newer variant's `[mark, a, b, c]`.  Both
are defined over the same `lines` list scanned in the same order. -/
theorem calculateWinner_variants_agree (squares : Board) :
    (calculateWinnerV1 squares = none ↔ calculateWinner squares = none) ∧
    ∀ m a b c, calculateWinner squares = some (m, a, b, c) →
      calculateWinnerV1 squares = some m := by
  rw [calculateWinner, calculateWinnerV1, winnerLoop_eq_find,
    winnerLoopV1_eq_find]
  cases hf : lines.find? (lineWon squares) with
  | none =>
    refine ⟨by simp, ?_⟩
    intro m a b c h
    simp at h
  | some l =>
    obtain ⟨m', hm'⟩ := (lineWon_iff squares l).mp (List.find?_some hf)
    refine ⟨by simp [hm'.1], ?_⟩
    intro m a b c h
    rw [Option.some_bind] at h ⊢
    rw [hm'.1, Option.map_some'] at h
    rw [hm'.1]
    cases h
    rfl

/-- Witness for C9 at the example winning board. -/
theorem calculateWinner_variants_agree_witness :
    calculateWinnerV1 winBoardX = some Cell.X :=
  (calculateWinner_variants_agree winBoardX).2 Cell.X 0 1 2 rfl

/-- The status when no line has won: the fall-back branch. -/
theorem status_of_no_winner (b : Bool) (squares : Board)
    (h : calculateWinner squares = none) :
    status b squares = "Next player: " ++ (if b then "X" else "O") := by
  unfold status
  rw [h]

/-- Claim C5: For every 9-cell board with no fully-occupied winning line —
including the all-empty board and a completely full board with no winner —
`calculateWinner` returns `none`, and the rendered status is
`"Next player: <mark>"` where the mark is `X` iff `currentMove` is even. -/
theorem calculateWinner_none_and_status (squares : Board)
    (h : ∀ l ∈ lines, ¬∃ m, lineFilledBy squares l m) :
    calculateWinner squares = none ∧
    ∀ st : GameState, currentSquares st = squares →
      status (xIsNext st) squares =
        "Next player: " ++ (if st.currentMove % 2 = 0 then "X" else "O") := by
  have hfind : lines.find? (lineWon squares) = none := by
    rw [List.find?_eq_none]
    intro l hl hw
    exact h l hl ((lineWon_iff squares l).mp hw)
  have hnone : calculateWinner squares = none := by
    rw [calculateWinner, winnerLoop_eq_find, hfind]
    rfl
  refine ⟨hnone, ?_⟩
  intro st _
  rw [status_of_no_winner _ _ hnone]
  by_cases hp : st.currentMove % 2 = 0
  · rw [if_pos hp, if_pos (by simp [xIsNext, hp])]
  · rw [if_neg hp, if_neg (by simp [xIsNext, hp])]

/-- Witness for C5: the empty board and a full draw board, and the status at
the initial state. -/
theorem calculateWinner_none_and_status_witness :
    calculateWinner emptyBoard = none ∧ calculateWinner drawBoard = none ∧
    status (xIsNext initialState) emptyBoard =
      "Next player: " ++
        (if initialState.currentMove % 2 = 0 then "X" else "O") :=
  ⟨(calculateWinner_none_and_status emptyBoard (by decide)).1,
   (calculateWinner_none_and_status drawBoard (by decide)).1,
   (calculateWinner_none_and_status emptyBoard (by decide)).2 initialState rfl⟩

/-- Claim C2: For every reachable state and every cell index `i < 9` such that
the evaluator finds no winner on the live board and cell `i` of the live
board is empty, `Play(i)` places `X` if `currentMove` is even and `O`
otherwise, producing a new board equal to the live board with only cell `i`
set; it records the changed cell's 1-based row (`i / 3 + 1`) and column
(`i % 3 + 1`); it truncates history to entries `[0, currentMove]` inclusive,
appends the new move record, and sets `currentMove` to the new last index. -/
theorem play_valid_effect (st : GameState) (hr : Reachable st) (i : Nat)
    (hi : i < 9)
    (hnw : calculateWinner (currentSquares st) = none)
    (he : getCell (currentSquares st) i = none) :
    handleClick st i =
      { history := st.history.take (st.currentMove + 1) ++
          [⟨(currentSquares st).set i
              (some (if st.currentMove % 2 = 0 then Cell.X else Cell.O)),
            some (i / 3 + 1), some (i % 3 + 1)⟩],
        currentMove := st.currentMove + 1,
        isAscending := st.isAscending } ∧
    (handleClick st i).currentMove = (handleClick st i).history.length - 1 := by
  obtain ⟨hcm, _, hlens, _⟩ := reachable_stateInv hr
  obtain ⟨r, hrmem, _, hrsq⟩ := currentSquares_mem st hcm
  have hlen : (currentSquares st).length = 9 := by
    rw [hrsq]; exact hlens r hrmem
  have heq := handleClick_valid_eq st i hi hlen hcm hnw he
  refine ⟨heq, ?_⟩
  rw [heq]
  show st.currentMove + 1 =
    (st.history.take (st.currentMove + 1) ++ [_]).length - 1
  rw [List.length_append, List.length_take, List.length_singleton]
  omega

/-- Witness for C2: the first click on the empty board places `X` at cell 0
with row 1, column 1. -/
theorem play_valid_effect_witness :
    handleClick initialState 0 =
      { history := initialState.history.take (initialState.currentMove + 1) ++
          [⟨(currentSquares initialState).set 0
              (some (if initialState.currentMove % 2 = 0 then Cell.X
                else Cell.O)),
            some (0 / 3 + 1), some (0 % 3 + 1)⟩],
        currentMove := initialState.currentMove + 1,
        isAscending := initialState.isAscending } ∧
    (handleClick initialState 0).currentMove =
      (handleClick initialState 0).history.length - 1 :=
  play_valid_effect initialState Reachable.init 0 (by decide) rfl rfl

/-- Claim C3: For every reachable state and every cell index, if the evaluator
finds a winner on the live board or the clicked cell is non-empty, then
`Play` leaves the entire state (history, `currentMove`, the live board and
the order flag) unchanged; `Play` is total, so it has no other failure
behavior. -/
theorem play_invalid_noop (st : GameState) (_hr : Reachable st) (i : Nat)
    (h : (calculateWinner (currentSquares st)).isSome = true ∨
      (getCell (currentSquares st) i).isSome = true) :
    handleClick st i = st := by
  apply handleClick_stop
  rcases h with h | h <;> simp [h]

/-- Witness for C3: after `X` plays cell 0, clicking cell 0 again is a
no-op. -/
theorem play_invalid_noop_witness :
    handleClick (handleClick initialState 0) 0 = handleClick initialState 0 :=
  play_invalid_noop (handleClick initialState 0)
    (Reachable.play 0 (by decide) Reachable.init) 0 (Or.inr rfl)

/-- Claim C4: In every state reachable from the initial state by any sequence of
`Play`, `JumpTo` and `ToggleOrder` operations: `history[0]` is the all-empty
board with null row/col; for every `m > 0` exactly one cell differs between
`history[m-1].board` and `history[m].board`, that cell changing from empty to
the mark of the player who moved on turn `m` (`X` when `m` is odd, `O` when
`m` is even); and `currentMove < length(history)` (with `0 ≤ currentMove`
holding trivially in `Nat`). -/
theorem reachable_invariants (st : GameState) (hr : Reachable st) :
    st.history[0]? = some ⟨List.replicate 9 none, none, none⟩ ∧
    (∀ m, 0 < m → m < st.history.length →
      ∃ p q, st.history[m - 1]? = some p ∧ st.history[m]? = some q ∧
        ∃ i, i < 9 ∧ p.squares[i]? = some none ∧
          q.squares = p.squares.set i
            (some (if m % 2 = 1 then Cell.X else Cell.O))) ∧
    st.currentMove < st.history.length := by
  obtain ⟨hcm, h0, _, hchain⟩ := reachable_stateInv hr
  refine ⟨h0, ?_, hcm⟩
  intro m hm0 hml
  obtain ⟨p, q, hp, hq, i, hi, he, hs⟩ := hchain m hm0 hml
  exact ⟨p, q, hp, hq, i, hi, he, by rwa [turnMark] at hs⟩

/-- Witness for C4 at the initial state. -/
theorem reachable_invariants_witness :
    initialState.history[0]? = some ⟨List.replicate 9 none, none, none⟩ ∧
    (∀ m, 0 < m → m < initialState.history.length →
      ∃ p q, initialState.history[m - 1]? = some p ∧
        initialState.history[m]? = some q ∧
        ∃ i, i < 9 ∧ p.squares[i]? = some none ∧
          q.squares = p.squares.set i
            (some (if m % 2 = 1 then Cell.X else Cell.O))) ∧
    initialState.currentMove < initialState.history.length :=
  reachable_invariants initialState Reachable.init

/-- Claim C6: For every reachable state and every move index
`0 ≤ move < length(history)`, `JumpTo(move)` sets `currentMove` to `move` and
leaves the history (hence every entry's board snapshot, row and column) and
the display-order flag unchanged. -/
theorem jumpTo_effect (st : GameState) (_hr : Reachable st) (move : Nat)
    (_hm : move < st.history.length) :
    (jumpTo st move).currentMove = move ∧
    (jumpTo st move).history = st.history ∧
    (jumpTo st move).isAscending = st.isAscending :=
  ⟨rfl, rfl, rfl⟩

/-- Witness for C6 at the initial state. -/
theorem jumpTo_effect_witness :
    (jumpTo initialState 0).currentMove = 0 ∧
    (jumpTo initialState 0).history = initialState.history ∧
    (jumpTo initialState 0).isAscending = initialState.isAscending :=
  jumpTo_effect initialState Reachable.init 0 (by decide)

/-- Claim C7: For every reachable state, `ToggleOrder()` flips the `isAscending`
flag, leaves history and `currentMove` unchanged, reverses the rendered order
of the move list, and applying it twice restores both the whole state and
the original rendering order. -/
theorem toggleOrder_effect (st : GameState) (_hr : Reachable st) :
    (handleToggleOrder st).isAscending = !st.isAscending ∧
    (handleToggleOrder st).history = st.history ∧
    (handleToggleOrder st).currentMove = st.currentMove ∧
    renderedMoves (handleToggleOrder st) = (renderedMoves st).reverse ∧
    handleToggleOrder (handleToggleOrder st) = st ∧
    renderedMoves (handleToggleOrder (handleToggleOrder st)) =
      renderedMoves st := by
  have hmoves : movesList (handleToggleOrder st) = movesList st := rfl
  have hdouble : handleToggleOrder (handleToggleOrder st) = st := by
    rw [handleToggleOrder, handleToggleOrder]
    simp [Bool.not_not]
  refine ⟨rfl, rfl, rfl, ?_, hdouble, by rw [hdouble]⟩
  rw [renderedMoves, renderedMoves, hmoves]
  cases ha : st.isAscending with
  | true => simp [handleToggleOrder, ha]
  | false => simp [handleToggleOrder, ha]

/-- Witness for C7 at the initial state. -/
theorem toggleOrder_effect_witness :
    (handleToggleOrder initialState).isAscending =
      !initialState.isAscending ∧
    (handleToggleOrder initialState).history = initialState.history ∧
    (handleToggleOrder initialState).currentMove =
      initialState.currentMove ∧
    renderedMoves (handleToggleOrder initialState) =
      (renderedMoves initialState).reverse ∧
    handleToggleOrder (handleToggleOrder initialState) = initialState ∧
    renderedMoves (handleToggleOrder (handleToggleOrder initialState)) =
      renderedMoves initialState :=
  toggleOrder_effect initialState Reachable.init

/-- A state whose live board is the example winning board. -/
def winStateX : GameState :=
  ⟨[⟨winBoardX, none, none⟩], 0, true⟩

/-- Claim C8: When the live board is `[X,X,X,O,O,null,null,null,null]`, the
rendered status is `"Winner: X"` regardless of whose turn it would be,
exactly the cells with indices 0, 1 and 2 are highlighted in the rendered
board, and `Play` on any empty cell of that board leaves the state
unchanged. -/
theorem winner_board_behavior :
    (∀ b : Bool, status b winBoardX = "Winner: X") ∧
    (∀ i, i < 9 →
      (isHighlighted winBoardX i = true ↔ i = 0 ∨ i = 1 ∨ i = 2)) ∧
    (∀ st : GameState, currentSquares st = winBoardX → ∀ i,
      getCell winBoardX i = none → handleClick st i = st) := by
  refine ⟨?_, by decide, ?_⟩
  · intro b
    cases b <;> rfl
  · intro st hs i _
    apply handleClick_stop
    rw [hs]
    rfl

/-- Witness for C8: status, the highlight of cell 0, and a click on the empty
cell 5. -/
theorem winner_board_behavior_witness :
    status true winBoardX = "Winner: X" ∧
    (isHighlighted winBoardX 0 = true ↔ 0 = 0 ∨ 0 = 1 ∨ 0 = 2) ∧
    handleClick winStateX 5 = winStateX :=
  ⟨winner_board_behavior.1 true,
   winner_board_behavior.2.1 0 (by decide),
   winner_board_behavior.2.2 winStateX rfl 5 rfl⟩

/-- Claim C10: For every pair of equal-length boards that differ at at least one
index, `getIndexOfTheLastSquare` returns the least index at which they
differ; when the two boards are identical it returns no value (`undefined`);
and under the invariant that `Play` changes exactly one cell (from empty to a
mark, at an index `< 9`) it returns that unique cell, so the row and column
`handlePlay` derives and stores both lie in `1..3`. -/
theorem getIndexOfTheLastSquare_least_diff :
    (∀ prev cur : Board, prev.length = cur.length → prev ≠ cur →
      ∃ i, getIndexOfTheLastSquare prev cur = some i ∧
        prev[i]? ≠ cur[i]? ∧ ∀ j, j < i → prev[j]? = cur[j]?) ∧
    (∀ prev : Board, getIndexOfTheLastSquare prev prev = none) ∧
    (∀ st : GameState, ∀ i m, (currentSquares st).length = 9 → i < 9 →
      (currentSquares st)[i]? = some none →
      getIndexOfTheLastSquare (currentSquares st)
        ((currentSquares st).set i (some m)) = some i ∧
      ∃ r c,
        (handlePlay st ((currentSquares st).set i (some m))).history.getLast? =
          some ⟨(currentSquares st).set i (some m), some r, some c⟩ ∧
        r = i / 3 + 1 ∧ c = i % 3 + 1 ∧ 1 ≤ r ∧ r ≤ 3 ∧ 1 ≤ c ∧ c ≤ 3) := by
  refine ⟨?_, getIndexOfTheLastSquare_self, ?_⟩
  · intro prev cur hlen hne
    cases hq : getIndexOfTheLastSquare prev cur with
    | none =>
      exfalso
      apply hne
      apply List.ext_getElem?
      intro n
      by_cases hn : n < prev.length
      · have hl := findDiff_none_all prev cur prev.length 0 hq n
          (Nat.zero_le n) (by omega)
        rw [List.getElem?_eq_getElem hn,
          List.getElem?_eq_getElem (by omega : n < cur.length)] at hl ⊢
        rw [looseEq_some_some] at hl
        rw [hl]
      · rw [List.getElem?_eq_none (by omega), List.getElem?_eq_none (by omega)]
    | some i =>
      obtain ⟨-, hlt, hne', hbefore⟩ :=
        findDiff_some_spec prev cur prev.length 0 i hq
      refine ⟨i, rfl, ne_of_looseEq_eq_false hne', ?_⟩
      intro j hj
      have hjr : j < prev.length := by omega
      have hl := hbefore j (Nat.zero_le j) hj
      rw [List.getElem?_eq_getElem hjr,
        List.getElem?_eq_getElem (by omega : j < cur.length)] at hl ⊢
      rw [looseEq_some_some] at hl
      rw [hl]
  · intro st i m hlen hi hempty
    have hidx := getIndexOfTheLastSquare_set (currentSquares st) i m
      (by omega) hempty
    refine ⟨hidx, i / 3 + 1, i % 3 + 1, ?_, rfl, rfl, by omega, by omega,
      by omega, by omega⟩
    simp only [handlePlay, hidx, Option.map_some']
    rw [List.getLast?_concat]

/-- Witness for C10: the empty board against the example winning board (first
difference at index 0), the empty board against itself, and one placed mark
at cell 4 of the initial state (row 2, column 2). -/
theorem getIndexOfTheLastSquare_least_diff_witness :
    (∃ i, getIndexOfTheLastSquare emptyBoard winBoardX = some i ∧
      emptyBoard[i]? ≠ winBoardX[i]? ∧
      ∀ j, j < i → emptyBoard[j]? = winBoardX[j]?) ∧
    getIndexOfTheLastSquare emptyBoard emptyBoard = none ∧
    (getIndexOfTheLastSquare (currentSquares initialState)
        ((currentSquares initialState).set 4 (some Cell.X)) = some 4 ∧
      ∃ r c,
        (handlePlay initialState
            ((currentSquares initialState).set 4 (some Cell.X))).history.getLast? =
          some ⟨(currentSquares initialState).set 4 (some Cell.X),
            some r, some c⟩ ∧
        r = 4 / 3 + 1 ∧ c = 4 % 3 + 1 ∧ 1 ≤ r ∧ r ≤ 3 ∧ 1 ≤ c ∧ c ≤ 3) :=
  ⟨getIndexOfTheLastSquare_least_diff.1 emptyBoard winBoardX (by decide)
      (by decide),
   getIndexOfTheLastSquare_least_diff.2.1 emptyBoard,
   getIndexOfTheLastSquare_least_diff.2.2 initialState 4 Cell.X (by decide)
      (by decide) (by decide)⟩
